import Mathlib

/-!
Verification of the model lifecycle cache of the NexusCore GGUF inference
server (`python_server/model_manager.py`, `python_server/config.py`,
`python_server/main.py`).

The embedding mirrors the Python source:
* a Python `dict` / `OrderedDict` becomes an association list
  `List (String × Nat)` whose order is the dict's insertion/recency order
  (head = least recently used, tail = most recently used);
* a model handle (`Llama` instance) is represented by an opaque `Nat`;
* the engine loader (`Llama(...)`) is an explicit parameter
  `ld : Nat → String → Option Nat` (indexed by how many loads happened so
  far, so that distinct invocations may return distinct handles or fail);
  `none` models the constructor raising;
* file existence (`get_model_path` / `Path.exists`) is a parameter
  `fe : String → Bool`;
* raised exceptions become explicit result constructors.

A separate small-step interpreter (`CSys`, `stepOf`, `exec`) embeds the
interleaving behaviour of concurrent `load_model` callers for a single
model name under asyncio's cooperative scheduling (code runs atomically
between `await` points; the explicit schedule chooses which coroutine
runs next).
-/

namespace NexusCore

/-- Association-list lookup: Python `d[k]` / `k in d` on a `dict` whose
bindings are kept in insertion order. -/
def lookupKey : List (String × Nat) → String → Option Nat
  | [], _ => none
  | p :: rest, k => if p.1 = k then some p.2 else lookupKey rest k

/-- Association-list removal of the (unique) binding of `k`:
Python `d.pop(k)` / `del d[k]`. -/
def removeKey : List (String × Nat) → String → List (String × Nat)
  | [], _ => []
  | p :: rest, k => if p.1 = k then rest else p :: removeKey rest k

/-- Association-list assignment `d[k] = v`: replaces the binding in place
if present, otherwise appends a new binding at the end (Python dict
insertion order). -/
def setKey : List (String × Nat) → String → Nat → List (String × Nat)
  | [], k, v => [(k, v)]
  | p :: rest, k, v => if p.1 = k then (k, v) :: rest else p :: setKey rest k v

/-- `OrderedDict.move_to_end(k)`: moves the binding of `k` to the
most-recent (last) position, keeping its value.  The Python call raises
`KeyError` when `k` is absent; the source only calls it under an
`if model_name in self.cache` guard, so the `none` branch (which returns
the list unchanged) is never reached from the embedded operations. -/
def move_to_end (c : List (String × Nat)) (k : String) : List (String × Nat) :=
  match lookupKey c k with
  | none => c
  | some v => removeKey c k ++ [(k, v)]

/-- `ModelCache` (`model_manager.py`, lines 36-54): LRU cache of loaded
models.  `cache` is the `OrderedDict` (head = least recently used),
`access_count` the auxiliary `dict` of access statistics. -/
structure ModelCache where
  max_size : Nat
  cache : List (String × Nat)
  access_count : List (String × Nat)
deriving DecidableEq

/-- `ModelCache.get` (lines 56-73): on a hit, moves the entry to the
most-recent end, bumps `access_count[name]` (`get(name, 0) + 1`) and
returns the cached handle; on a miss returns `None` and leaves the state
unchanged. -/
def ModelCache.get (s : ModelCache) (k : String) : Option Nat × ModelCache :=
  match lookupKey s.cache k with
  | some v =>
      (some v,
       { s with
         cache := move_to_end s.cache k
         access_count :=
           setKey s.access_count k ((lookupKey s.access_count k).getD 0 + 1) })
  | none => (none, s)

/-- `ModelCache.put` (lines 75-98).  If the name is already cached, the
code only calls `move_to_end` (the stored handle is NOT replaced and
`access_count` is untouched).  Otherwise, if `len(cache) >= max_size`,
`popitem(last=False)` evicts the least-recent (head) entry, then the new
binding is appended and `access_count[name] = 1`.  The first component is
the evicted entry, if any.  (`popitem` on an empty dict would raise
`KeyError`; that branch is unreachable when `1 ≤ max_size`, because the
eviction guard then implies the cache is nonempty.) -/
def ModelCache.put (s : ModelCache) (k : String) (h : Nat) :
    Option (String × Nat) × ModelCache :=
  if (lookupKey s.cache k).isSome then
    (none, { s with cache := move_to_end s.cache k })
  else
    let ev : Option (String × Nat) × List (String × Nat) :=
      if s.max_size ≤ s.cache.length then
        match s.cache with
        | [] => (none, [])
        | e :: rest => (some e, rest)
      else (none, s.cache)
    (ev.1,
     { s with
       cache := ev.2 ++ [(k, h)]
       access_count := setKey s.access_count k 1 })

/-- The release loop of `ModelCache.clear` (lines 103-107): iterates over
every cached entry and attempts to release it (`del model_instance`
inside `try/except`); a failing release (`rf name = true`) is caught and
logged, and the iteration continues.  Returns each attempted entry
together with whether its release failed. -/
def releaseAll (rf : String → Bool) : List (String × Nat) → List ((String × Nat) × Bool)
  | [] => []
  | p :: rest => (p, rf p.1) :: releaseAll rf rest

/-- `ModelCache.clear` (lines 100-111): attempts to release every cached
entry exactly once (failures swallowed), then empties both `cache` and
`access_count`. -/
def ModelCache.clear (rf : String → Bool) (s : ModelCache) :
    List ((String × Nat) × Bool) × ModelCache :=
  (releaseAll rf s.cache, { s with cache := [], access_count := [] })

/-- Outcome of `ModelManager.load_model`: a returned handle, a raised
`FileNotFoundError` from `get_model_path` (`config.py`, lines 60-78), or
the `RuntimeError("Model loading failed: ...")` raised when the engine
constructor fails (lines 164-166). -/
inductive LoadResult
  | ok (h : Nat)
  | notFound
  | loadFailed
deriving DecidableEq

/-- `ModelManager` (lines 114-123): the LRU cache, the per-name
`loading_locks` dict (modelled by its key set, in insertion order), and a
ghost counter of engine-loader invocations used to state "the loader was
invoked (exactly) once" properties; it is not a Python field. -/
structure ModelManager where
  cache : ModelCache
  loading_locks : List String
  loadCalls : Nat
deriving DecidableEq

/-- `ModelManager.load_model` (lines 125-166), sequential (single-caller)
semantics; `LLAMA_CPP_AVAILABLE` is taken to be true.  Checks the cache
(line 132); on a miss lazily creates the per-name lock (lines 137-138),
acquires it, re-checks the cache (line 141), resolves the file path
(line 146; raises `FileNotFoundError` when `fe k = false`), invokes the
engine loader (lines 149-158; `ld` applied to the current invocation
count), and on success inserts the handle (line 161).  A loader failure
raises without touching the cache (lines 164-166). -/
def ModelManager.load_model (fe : String → Bool) (ld : Nat → String → Option Nat)
    (s : ModelManager) (k : String) : LoadResult × ModelManager :=
  match ModelCache.get s.cache k with
  | (some h, c1) => (LoadResult.ok h, { s with cache := c1 })
  | (none, _) =>
      let locks := if k ∈ s.loading_locks then s.loading_locks else s.loading_locks ++ [k]
      match ModelCache.get s.cache k with
      | (some h, c2) => (LoadResult.ok h, { s with cache := c2, loading_locks := locks })
      | (none, _) =>
          if fe k then
            match ld s.loadCalls k with
            | some h =>
                (LoadResult.ok h,
                 { cache := (ModelCache.put s.cache k h).2
                   loading_locks := locks
                   loadCalls := s.loadCalls + 1 })
            | none =>
                (LoadResult.loadFailed,
                 { s with loading_locks := locks, loadCalls := s.loadCalls + 1 })
          else
            (LoadResult.notFound, { s with loading_locks := locks })

/-- `ModelManager.unload_model` (lines 168-177): pops the entry from the
underlying `OrderedDict` if present (leaving `access_count` and
`loading_locks` untouched); a no-op on a missing name. -/
def ModelManager.unload_model (s : ModelManager) (k : String) : ModelManager :=
  if (lookupKey s.cache.cache k).isSome then
    { s with cache := { s.cache with cache := removeKey s.cache.cache k } }
  else s

/-- `ModelManager.shutdown` (lines 179-182): `await self.cache.clear()`. -/
def ModelManager.shutdown (rf : String → Bool) (s : ModelManager) :
    List ((String × Nat) × Bool) × ModelManager :=
  ((ModelCache.clear rf s.cache).1, { s with cache := (ModelCache.clear rf s.cache).2 })

/-- The `/v1/cache/clear` endpoint (`main.py`, lines 321-329), the spec's
`clear_all`: `await model_manager.cache.clear()`. -/
def ModelManager.clear_all (rf : String → Bool) (s : ModelManager) :
    List ((String × Nat) × Bool) × ModelManager :=
  ((ModelCache.clear rf s.cache).1, { s with cache := (ModelCache.clear rf s.cache).2 })

/-- A freshly constructed manager (`ModelManager.__init__`, lines 119-123)
with capacity `N = settings.max_cached_models`. -/
def initManager (N : Nat) : ModelManager :=
  { cache := { max_size := N, cache := [], access_count := [] }
    loading_locks := []
    loadCalls := 0 }

/-- The keys of an association list, in order. -/
def keys (c : List (String × Nat)) : List String := c.map Prod.fst

/-- A concrete manager state — capacity 2, model `"m"` resident with
handle `3`, its per-name lock already created — used as a test fixture
when instantiating theorems at concrete inputs. -/
def sampleManager : ModelManager :=
  { cache := { max_size := 2, cache := [("m", 3)], access_count := [("m", 1)] }
    loading_locks := ["m"]
    loadCalls := 1 }

/-! ### Timed run: ghost last-access instrumentation for the LRU claim

`TState` pairs the cache with a ghost map `la` recording, for each name,
the logical time of its most recent recency bump (a cache hit via `get`,
or any `put`), and a ghost `clock`.  The cache operations themselves are
exactly the embedded source operations. -/

/-- One cache operation of a client sequence. -/
inductive CacheOp
  | get (k : String)
  | put (k : String) (h : Nat)

/-- Cache state with ghost recency instrumentation. -/
structure TState where
  mc : ModelCache
  la : String → Nat
  clock : Nat

/-- Run one operation, updating the ghost last-access time of a name
exactly when the source bumps its recency (successful `get`, or `put`). -/
def tstep (s : TState) : CacheOp → TState
  | CacheOp.get k =>
      match (ModelCache.get s.mc k).1 with
      | some _ =>
          ⟨(ModelCache.get s.mc k).2, fun x => if x = k then s.clock else s.la x,
           s.clock + 1⟩
      | none => ⟨(ModelCache.get s.mc k).2, s.la, s.clock + 1⟩
  | CacheOp.put k h =>
      ⟨(ModelCache.put s.mc k h).2, fun x => if x = k then s.clock else s.la x,
       s.clock + 1⟩

/-- Initial timed state: an empty cache of capacity `N`. -/
def initT (N : Nat) : TState :=
  ⟨{ max_size := N, cache := [], access_count := [] }, fun _ => 0, 1⟩

/-- Run a sequence of cache operations from the empty cache. -/
def runT (N : Nat) (ops : List CacheOp) : TState :=
  ops.foldl tstep (initT N)

/-- Invariant tying the order of the `OrderedDict` to the ghost
last-access times: keys are unique, listed in strictly increasing order
of last access, all accessed in the past, and the size bound holds. -/
structure TInv (s : TState) : Prop where
  pos : 1 ≤ s.mc.max_size
  nodup : (keys s.mc.cache).Nodup
  sorted : (keys s.mc.cache).Pairwise (fun a b => s.la a < s.la b)
  bounded : ∀ a ∈ keys s.mc.cache, s.la a < s.clock
  size_le : s.mc.cache.length ≤ s.mc.max_size

/-- The hypothesis under which the error classification of `load_model`
is stated: every resident model's backing file exists.  It holds in every
state reachable from a fresh manager under a fixed filesystem, because an
entry is only inserted after `get_model_path` succeeded for its name
(see `residentFilesExist_init` and the preservation lemmas below). -/
def ResidentFilesExist (fe : String → Bool) (s : ModelManager) : Prop :=
  ∀ k ∈ keys s.cache.cache, fe k = true

/-! ### Interleaving semantics of concurrent `load_model` callers

`model_manager.py` runs under asyncio: code between `await` points (and
the synchronous `Llama(...)` constructor call) executes atomically, and
the event loop interleaves coroutines only at those points.  The
interpreter below models `n` concurrent `load_model(m)` callers for one
fixed name `m`, at a granularity at least as fine as the real suspension
points, with an explicit schedule choosing which caller runs next.
Only the state relevant to these callers is kept: whether `m` is cached
(`cache`), whether `m ∈ loading_locks` (`lockExists`), who holds the
per-name `asyncio.Lock` (`lockHeld`), and how many engine loads were
issued (`loadCalls`).  The loader `ld j` gives the outcome of the `j`-th
engine-load invocation (`none` = the constructor raises); the model
covers executions in which the backing file for `m` exists, so an error
is an engine-load failure. -/

/-- Result observed by one caller: a returned handle, or the exception of
the `j`-th loader invocation (each invocation raises its own exception
object, so errors carry the invocation index). -/
inductive CRes
  | ok (h : Nat)
  | err (j : Nat)
deriving DecidableEq

/-- Program counter of one `load_model` caller.

* `start`   — about to perform the first cache check (line 132);
* `ensure`  — about to run the lock-creation lines 137-138 (atomic: no
  `await` separates the membership test from the assignment);
* `acq`     — waiting to acquire the per-name lock (line 140);
* `check2`  — holding the lock, about to re-check the cache (line 141);
* `doLoad`  — holding the lock, cache re-check missed, about to invoke
  the engine loader (lines 146-158);
* `insert h` — load succeeded with handle `h`, about to `cache.put`
  (line 161);
* `rel h`   — handle inserted, about to release the lock and return;
* `done r`  — returned (or raised) with result `r`. -/
inductive PC
  | start
  | ensure
  | acq
  | check2
  | doLoad
  | insert (h : Nat)
  | rel (h : Nat)
  | done (r : CRes)
deriving DecidableEq

/-- Shared state plus per-caller control state for `n` concurrent
`load_model` callers of one name. -/
structure CSys (n : Nat) where
  cache : Option Nat
  lockExists : Bool
  lockHeld : Option (Fin n)
  loadCalls : Nat
  pcs : Fin n → PC

/-- Replace caller `i`'s program counter. -/
def setPC {n : Nat} (s : CSys n) (i : Fin n) (p : PC) : CSys n :=
  { s with pcs := Function.update s.pcs i p }

/-- One atomic step of caller `i` (a no-op if `i` is blocked on the lock
or already finished). -/
def stepOf {n : Nat} (ld : Nat → Option Nat) (s : CSys n) (i : Fin n) : CSys n :=
  match s.pcs i with
  | PC.start =>
      match s.cache with
      | some h => setPC s i (PC.done (CRes.ok h))
      | none => setPC s i PC.ensure
  | PC.ensure => { setPC s i PC.acq with lockExists := true }
  | PC.acq =>
      match s.lockHeld with
      | none => { setPC s i PC.check2 with lockHeld := some i }
      | some _ => s
  | PC.check2 =>
      match s.cache with
      | some h => { setPC s i (PC.done (CRes.ok h)) with lockHeld := none }
      | none => setPC s i PC.doLoad
  | PC.doLoad =>
      match ld (s.loadCalls + 1) with
      | some h => { setPC s i (PC.insert h) with loadCalls := s.loadCalls + 1 }
      | none =>
          { setPC s i (PC.done (CRes.err (s.loadCalls + 1))) with
            loadCalls := s.loadCalls + 1, lockHeld := none }
  | PC.insert h => { setPC s i (PC.rel h) with cache := some h }
  | PC.rel h => { setPC s i (PC.done (CRes.ok h)) with lockHeld := none }
  | PC.done _ => s

/-- Run the callers under an explicit schedule. -/
def exec {n : Nat} (ld : Nat → Option Nat) : List (Fin n) → CSys n → CSys n
  | [], s => s
  | i :: sched, s => exec ld sched (stepOf ld s i)

/-- Initial state: the name is not cached, no per-name lock exists yet,
no load has been issued, and every caller is about to enter
`load_model`. -/
def initSys (n : Nat) : CSys n :=
  { cache := none, lockExists := false, lockHeld := none, loadCalls := 0,
    pcs := fun _ => PC.start }

/-- Whether a program counter lies in the lock-protected region (from
successful acquisition to release). -/
def InRegion : PC → Prop
  | PC.check2 => True
  | PC.doLoad => True
  | PC.insert _ => True
  | PC.rel _ => True
  | _ => False

/-- Mutual-exclusion invariant of the per-name lock, for an arbitrary
loader: whoever sits in the lock-protected region holds the lock, and a
caller only reaches the load (or the insert) after its in-lock cache
check missed, so the name is not cached while a load is pending. -/
structure CInv {n : Nat} (s : CSys n) : Prop where
  region : ∀ i, InRegion (s.pcs i) → s.lockHeld = some i
  loadNone : ∀ i, s.pcs i = PC.doLoad → s.cache = none
  insertNone : ∀ i h, s.pcs i = PC.insert h → s.cache = none

/-- Strengthened invariant for a loader whose first invocation succeeds
with handle `h`: at most one load is ever issued, every pending insert
or release carries `h`, and every finished caller observed `ok h`. -/
structure COk {n : Nat} (h : Nat) (s : CSys n) : Prop where
  calls_le : s.loadCalls ≤ 1
  cache_val : ∀ c, s.cache = some c → c = h ∧ s.loadCalls = 1
  ins_val : ∀ i h', s.pcs i = PC.insert h' → h' = h ∧ s.loadCalls = 1
  rel_val : ∀ i h', s.pcs i = PC.rel h' → h' = h ∧ s.loadCalls = 1 ∧ s.cache = some h
  done_val : ∀ i r, s.pcs i = PC.done r → r = CRes.ok h ∧ s.loadCalls = 1
  load_zero : ∀ i, s.pcs i = PC.doLoad → s.loadCalls = 0
  calls_rev : s.loadCalls = 1 →
    s.cache = some h ∨ ∃ j, s.pcs j = PC.insert h ∨ s.pcs j = PC.rel h

/-! ### Association-list lemmas -/


@[simp] lemma keys_nil : keys [] = [] := rfl

@[simp] lemma keys_cons (p : String × Nat) (rest : List (String × Nat)) :
    keys (p :: rest) = p.1 :: keys rest := rfl

@[simp] lemma keys_append (c d : List (String × Nat)) :
    keys (c ++ d) = keys c ++ keys d := List.map_append _ _ _

lemma lookupKey_eq_none {c : List (String × Nat)} {k : String} :
    lookupKey c k = none ↔ k ∉ keys c := by
  induction c with
  | nil => simp [lookupKey]
  | cons p rest ih =>
      by_cases hp : p.1 = k
      · simp [lookupKey, hp]
      · simp [lookupKey, hp, ih, Ne.symm hp]

lemma mem_keys_of_lookupKey {c : List (String × Nat)} {k : String} {v : Nat}
    (h : lookupKey c k = some v) : k ∈ keys c := by
  by_contra hk
  rw [← lookupKey_eq_none] at hk
  simp [hk] at h

lemma removeKey_sublist (c : List (String × Nat)) (k : String) :
    List.Sublist (removeKey c k) c := by
  induction c with
  | nil => simp [removeKey]
  | cons p rest ih =>
      by_cases hp : p.1 = k
      · simp only [removeKey, if_pos hp]
        exact List.sublist_cons_self p rest
      · simp only [removeKey, if_neg hp]
        exact ih.cons₂ p

lemma keys_removeKey_sublist (c : List (String × Nat)) (k : String) :
    List.Sublist (keys (removeKey c k)) (keys c) :=
  (removeKey_sublist c k).map Prod.fst

lemma not_mem_keys_removeKey {c : List (String × Nat)} {k : String}
    (hnd : (keys c).Nodup) : k ∉ keys (removeKey c k) := by
  induction c with
  | nil => simp [removeKey]
  | cons p rest ih =>
      rcases List.nodup_cons.mp hnd with ⟨hp, hrest⟩
      by_cases hpk : p.1 = k
      · simpa [removeKey, hpk] using (hpk ▸ hp)
      · intro hmem
        rw [removeKey] at hmem
        simp only [hpk, if_false, keys_cons, List.mem_cons] at hmem
        rcases hmem with h | h
        · exact hpk h.symm
        · exact ih hrest h

lemma length_removeKey {c : List (String × Nat)} {k : String} {v : Nat}
    (h : lookupKey c k = some v) : (removeKey c k).length + 1 = c.length := by
  induction c with
  | nil => simp [lookupKey] at h
  | cons p rest ih =>
      by_cases hp : p.1 = k
      · simp [removeKey, hp]
      · rw [lookupKey] at h
        simp only [hp, if_false] at h
        simp [removeKey, hp, ih h]

lemma lookupKey_setKey_ne {c : List (String × Nat)} {k k' : String} (v : Nat)
    (h : k' ≠ k) : lookupKey (setKey c k v) k' = lookupKey c k' := by
  induction c with
  | nil => simp [setKey, lookupKey, Ne.symm h]
  | cons p rest ih =>
      by_cases hp : p.1 = k
      · have h1 : ¬(k = k') := fun hh => h hh.symm
        have h2 : ¬(p.1 = k') := fun hh => h ((hp ▸ hh : k = k')).symm
        simp only [setKey, if_pos hp, lookupKey, if_neg h1, if_neg h2]
      · by_cases hp' : p.1 = k'
        · simp only [setKey, if_neg hp, lookupKey, if_pos hp']
        · simp only [setKey, if_neg hp, lookupKey, if_neg hp', ih]

/-! ### Branch lemmas for the cache operations -/

lemma ModelCache.get_miss {s : ModelCache} {k : String}
    (hl : lookupKey s.cache k = none) : ModelCache.get s k = (none, s) := by
  simp [ModelCache.get, hl]

lemma ModelCache.get_hit {s : ModelCache} {k : String} {v : Nat}
    (hl : lookupKey s.cache k = some v) :
    ModelCache.get s k =
      (some v,
       { s with
         cache := move_to_end s.cache k
         access_count :=
           setKey s.access_count k ((lookupKey s.access_count k).getD 0 + 1) }) := by
  simp [ModelCache.get, hl]

lemma ModelCache.put_hit {s : ModelCache} {k : String} {v h : Nat}
    (hl : lookupKey s.cache k = some v) :
    ModelCache.put s k h = (none, { s with cache := move_to_end s.cache k }) := by
  simp [ModelCache.put, hl]

lemma ModelCache.put_miss_room {s : ModelCache} {k : String} {h : Nat}
    (hl : lookupKey s.cache k = none) (hcap : ¬ s.max_size ≤ s.cache.length) :
    ModelCache.put s k h =
      (none,
       { s with
         cache := s.cache ++ [(k, h)]
         access_count := setKey s.access_count k 1 }) := by
  simp [ModelCache.put, hl, hcap]

lemma ModelCache.put_miss_evict {s : ModelCache} {k : String} {h : Nat}
    {e : String × Nat} {rest : List (String × Nat)}
    (hl : lookupKey s.cache k = none) (hc : s.cache = e :: rest)
    (hcap : s.max_size ≤ s.cache.length) :
    ModelCache.put s k h =
      (some e,
       { s with
         cache := rest ++ [(k, h)]
         access_count := setKey s.access_count k 1 }) := by
  rw [ModelCache.put, if_neg (by simp [hl])]
  rw [hc] at hcap ⊢
  simp only [List.length_cons] at hcap
  simp [hcap]

lemma keys_move_to_end {c : List (String × Nat)} {k : String} {v : Nat}
    (h : lookupKey c k = some v) :
    keys (move_to_end c k) = keys (removeKey c k) ++ [k] := by
  simp [move_to_end, h]

lemma length_move_to_end {c : List (String × Nat)} {k : String} {v : Nat}
    (h : lookupKey c k = some v) : (move_to_end c k).length = c.length := by
  simp [move_to_end, h, ← length_removeKey h]

lemma tinv_init (N : Nat) (hN : 1 ≤ N) : TInv (initT N) := by
  refine ⟨hN, ?_, ?_, ?_, ?_⟩ <;> simp [initT, keys]

/-- Appending a fresh key at the most-recent end, stamped with the
current clock, preserves the ordering invariants. -/
lemma tinv_extend {la : String → Nat} {clock : Nat} {l : List String} {k : String}
    (hnd : l.Nodup) (hk : k ∉ l)
    (hp : l.Pairwise (fun a b => la a < la b))
    (hb : ∀ a ∈ l, la a < clock) :
    (l ++ [k]).Nodup ∧
    (l ++ [k]).Pairwise
      (fun a b => (if a = k then clock else la a) < (if b = k then clock else la b)) ∧
    (∀ a ∈ l ++ [k], (if a = k then clock else la a) < clock + 1) := by
  refine ⟨?_, ?_, ?_⟩
  · rw [List.nodup_append]
    exact ⟨hnd, List.nodup_singleton k, by simpa [List.disjoint_singleton] using hk⟩
  · rw [List.pairwise_append]
    refine ⟨?_, List.pairwise_singleton _ _, ?_⟩
    · refine hp.imp_of_mem ?_
      intro a b ha hb'
      have hak : a ≠ k := fun h => hk (h ▸ ha)
      have hbk : b ≠ k := fun h => hk (h ▸ hb')
      intro hab
      simpa [hak, hbk] using hab
    · intro a ha b hbmem
      have hak : a ≠ k := fun h => hk (h ▸ ha)
      have hbk : b = k := by simpa using hbmem
      simpa [hak, hbk] using hb a ha
  · intro a ha
    rcases List.mem_append.mp ha with h | h
    · have hak : a ≠ k := fun hh => hk (hh ▸ h)
      simpa [hak] using Nat.lt_succ_of_lt (hb a h)
    · have hak : a = k := by simpa using h
      simp [hak]

/-- The three invariant facts transported along `move_to_end` on a hit
(the shared core of the `get`-hit and `put`-hit cases). -/
lemma tinv_move {s : TState} (hs : TInv s) {k : String} {v : Nat}
    (hl : lookupKey s.mc.cache k = some v) :
    (keys (move_to_end s.mc.cache k)).Nodup ∧
    (keys (move_to_end s.mc.cache k)).Pairwise
      (fun a b => (if a = k then s.clock else s.la a) < (if b = k then s.clock else s.la b)) ∧
    (∀ a ∈ keys (move_to_end s.mc.cache k),
       (if a = k then s.clock else s.la a) < s.clock + 1) := by
  have hkeys := keys_move_to_end hl
  have hsub := keys_removeKey_sublist s.mc.cache k
  have hnd' : (keys (removeKey s.mc.cache k)).Nodup := hs.nodup.sublist hsub
  have hk' : k ∉ keys (removeKey s.mc.cache k) := not_mem_keys_removeKey hs.nodup
  have hp' := hs.sorted.sublist hsub
  have hb' : ∀ a ∈ keys (removeKey s.mc.cache k), s.la a < s.clock :=
    fun a ha => hs.bounded a (hsub.subset ha)
  obtain ⟨n1, n2, n3⟩ := tinv_extend hnd' hk' hp' hb'
  exact ⟨by rw [hkeys]; exact n1, by rw [hkeys]; exact n2, by rw [hkeys]; exact n3⟩

lemma tinv_tstep {s : TState} (hs : TInv s) (op : CacheOp) : TInv (tstep s op) := by
  cases op with
  | get k =>
      cases hl : lookupKey s.mc.cache k with
      | none =>
          simp only [tstep, ModelCache.get_miss hl]
          exact ⟨hs.pos, hs.nodup, hs.sorted,
                 fun a ha => Nat.lt_succ_of_lt (hs.bounded a ha), hs.size_le⟩
      | some v =>
          obtain ⟨n1, n2, n3⟩ := tinv_move hs hl
          simp only [tstep, ModelCache.get_hit hl]
          exact ⟨hs.pos, n1, n2, n3, by
            simpa [length_move_to_end hl] using hs.size_le⟩
  | put k h =>
      show TInv ⟨(ModelCache.put s.mc k h).2, _, _⟩
      cases hl : lookupKey s.mc.cache k with
      | some v =>
          obtain ⟨n1, n2, n3⟩ := tinv_move hs hl
          rw [ModelCache.put_hit hl]
          exact ⟨hs.pos, n1, n2, n3, by
            simpa [length_move_to_end hl] using hs.size_le⟩
      | none =>
          have hkmem : k ∉ keys s.mc.cache := lookupKey_eq_none.mp hl
          by_cases hcap : s.mc.max_size ≤ s.mc.cache.length
          · -- eviction branch: the cache is nonempty because `1 ≤ max_size ≤ length`
            cases hc : s.mc.cache with
            | nil =>
                exfalso
                rw [hc] at hcap
                simp only [List.length_nil, Nat.le_zero] at hcap
                have := hs.pos
                omega
            | cons e rest =>
                rw [ModelCache.put_miss_evict hl hc hcap]
                have nodup := hs.nodup
                have sorted := hs.sorted
                have bounded := hs.bounded
                have size_le := hs.size_le
                rw [hc] at nodup sorted bounded size_le hkmem
                have hnd' : (keys rest).Nodup := (List.nodup_cons.mp nodup).2
                have hk' : k ∉ keys rest := fun hmem => hkmem (List.mem_cons_of_mem _ hmem)
                have hp' : (keys rest).Pairwise (fun a b => s.la a < s.la b) :=
                  (List.pairwise_cons.mp sorted).2
                have hb' : ∀ a ∈ keys rest, s.la a < s.clock :=
                  fun a ha => bounded a (List.mem_cons_of_mem _ ha)
                obtain ⟨n1, n2, n3⟩ := tinv_extend hnd' hk' hp' hb'
                refine ⟨hs.pos, by simpa using n1, by simpa using n2, by simpa using n3, ?_⟩
                simp only [List.length_append, List.length_cons, List.length_nil]
                simp only [List.length_cons] at size_le
                omega
          · rw [ModelCache.put_miss_room hl hcap]
            obtain ⟨n1, n2, n3⟩ := tinv_extend hs.nodup hkmem hs.sorted hs.bounded
            refine ⟨hs.pos, by simpa using n1, by simpa using n2, by simpa using n3, ?_⟩
            simp only [List.length_append, List.length_cons, List.length_nil]
            have := hs.size_le
            omega

lemma tinv_runT (N : Nat) (hN : 1 ≤ N) (ops : List CacheOp) : TInv (runT N ops) := by
  suffices h : ∀ (l : List CacheOp) (s : TState), TInv s → TInv (l.foldl tstep s) by
    exact h ops (initT N) (tinv_init N hN)
  intro l
  induction l with
  | nil => intro s hs; exact hs
  | cons op rest ih => intro s hs; exact ih _ (tinv_tstep hs op)

lemma tstep_max_size (s : TState) (op : CacheOp) :
    (tstep s op).mc.max_size = s.mc.max_size := by
  cases op with
  | get k =>
      cases hl : lookupKey s.mc.cache k with
      | none => simp [tstep, ModelCache.get_miss hl]
      | some v => simp [tstep, ModelCache.get_hit hl]
  | put k h =>
      show (ModelCache.put s.mc k h).2.max_size = s.mc.max_size
      cases hl : lookupKey s.mc.cache k with
      | some v => rw [ModelCache.put_hit hl]
      | none =>
          by_cases hcap : s.mc.max_size ≤ s.mc.cache.length
          · cases hc : s.mc.cache with
            | nil =>
                rw [ModelCache.put]
                simp [hl]
            | cons e rest => rw [ModelCache.put_miss_evict hl hc hcap]
          · rw [ModelCache.put_miss_room hl hcap]

lemma runT_max_size (N : Nat) (ops : List CacheOp) :
    (runT N ops).mc.max_size = N := by
  suffices h : ∀ (l : List CacheOp) (s : TState),
      (l.foldl tstep s).mc.max_size = s.mc.max_size by
    exact (h ops (initT N)).trans rfl
  intro l
  induction l with
  | nil => intro s; rfl
  | cons op rest ih => intro s; rw [List.foldl_cons, ih, tstep_max_size]

/-- In a state satisfying the invariant, an eviction performed by `put`
removes a currently cached entry whose ghost last-access time is minimal
among all cached entries. -/
lemma evict_min {s : TState} (hs : TInv s) {k : String} {h : Nat} {e : String × Nat}
    (he : (ModelCache.put s.mc k h).1 = some e) :
    e ∈ s.mc.cache ∧ ∀ p ∈ s.mc.cache, s.la e.1 ≤ s.la p.1 := by
  cases hl : lookupKey s.mc.cache k with
  | some v => rw [ModelCache.put_hit hl] at he; cases he
  | none =>
      by_cases hcap : s.mc.max_size ≤ s.mc.cache.length
      · cases hc : s.mc.cache with
        | nil =>
            exfalso
            rw [hc] at hcap
            simp only [List.length_nil, Nat.le_zero] at hcap
            have := hs.pos
            omega
        | cons e' rest =>
            rw [ModelCache.put_miss_evict hl hc hcap] at he
            cases he
            constructor
            · exact List.mem_cons_self _ _
            · intro p hp
              rcases List.mem_cons.mp hp with rfl | hp
              · exact le_refl _
              · have hsorted := hs.sorted
                rw [hc] at hsorted
                have := (List.pairwise_cons.mp hsorted).1 p.1
                  (List.mem_map_of_mem Prod.fst hp)
                exact Nat.le_of_lt this
      · rw [ModelCache.put_miss_room hl hcap] at he; cases he

/-! ### Branch lemmas for the manager operations -/

lemma load_model_hit {fe : String → Bool} {ld : Nat → String → Option Nat}
    {s : ModelManager} {k : String} {v : Nat}
    (hv : lookupKey s.cache.cache k = some v) :
    ModelManager.load_model fe ld s k =
      (LoadResult.ok v, { s with cache := (ModelCache.get s.cache k).2 }) := by
  unfold ModelManager.load_model
  rw [ModelCache.get_hit hv]

lemma load_model_miss_notFound {fe : String → Bool} {ld : Nat → String → Option Nat}
    {s : ModelManager} {k : String}
    (hm : lookupKey s.cache.cache k = none) (hfe : fe k = false) :
    ModelManager.load_model fe ld s k =
      (LoadResult.notFound,
       { s with loading_locks :=
           if k ∈ s.loading_locks then s.loading_locks else s.loading_locks ++ [k] }) := by
  simp [ModelManager.load_model, ModelCache.get_miss (s := s.cache) hm, hfe]

lemma load_model_miss_ok {fe : String → Bool} {ld : Nat → String → Option Nat}
    {s : ModelManager} {k : String} {h : Nat}
    (hm : lookupKey s.cache.cache k = none) (hfe : fe k = true)
    (hld : ld s.loadCalls k = some h) :
    ModelManager.load_model fe ld s k =
      (LoadResult.ok h,
       { cache := (ModelCache.put s.cache k h).2
         loading_locks :=
           if k ∈ s.loading_locks then s.loading_locks else s.loading_locks ++ [k]
         loadCalls := s.loadCalls + 1 }) := by
  simp [ModelManager.load_model, ModelCache.get_miss (s := s.cache) hm, hfe, hld]

lemma load_model_miss_fail {fe : String → Bool} {ld : Nat → String → Option Nat}
    {s : ModelManager} {k : String}
    (hm : lookupKey s.cache.cache k = none) (hfe : fe k = true)
    (hld : ld s.loadCalls k = none) :
    ModelManager.load_model fe ld s k =
      (LoadResult.loadFailed,
       { s with
         loading_locks :=
           if k ∈ s.loading_locks then s.loading_locks else s.loading_locks ++ [k]
         loadCalls := s.loadCalls + 1 }) := by
  simp [ModelManager.load_model, ModelCache.get_miss (s := s.cache) hm, hfe, hld]

lemma unload_model_hit {s : ModelManager} {k : String} {v : Nat}
    (hv : lookupKey s.cache.cache k = some v) :
    ModelManager.unload_model s k =
      { s with cache := { s.cache with cache := removeKey s.cache.cache k } } := by
  simp [ModelManager.unload_model, hv]

lemma unload_model_miss {s : ModelManager} {k : String}
    (hm : lookupKey s.cache.cache k = none) :
    ModelManager.unload_model s k = s := by
  simp [ModelManager.unload_model, hm]

lemma unload_model_locks (s : ModelManager) (k : String) :
    (ModelManager.unload_model s k).loading_locks = s.loading_locks := by
  by_cases hv : (lookupKey s.cache.cache k).isSome <;>
    simp [ModelManager.unload_model, hv]

lemma unload_model_access_count (s : ModelManager) (k : String) :
    (ModelManager.unload_model s k).cache.access_count = s.cache.access_count := by
  by_cases hv : (lookupKey s.cache.cache k).isSome <;>
    simp [ModelManager.unload_model, hv]

lemma unload_model_loadCalls (s : ModelManager) (k : String) :
    (ModelManager.unload_model s k).loadCalls = s.loadCalls := by
  by_cases hv : (lookupKey s.cache.cache k).isSome <;>
    simp [ModelManager.unload_model, hv]

lemma releaseAll_map_fst (rf : String → Bool) (l : List (String × Nat)) :
    (releaseAll rf l).map Prod.fst = l := by
  induction l with
  | nil => rfl
  | cons p rest ih => simp [releaseAll, ih]

lemma lookupKey_removeKey_self {c : List (String × Nat)} {k : String}
    (hnd : (keys c).Nodup) : lookupKey (removeKey c k) k = none :=
  lookupKey_eq_none.mpr (not_mem_keys_removeKey hnd)

lemma lookupKey_isSome_of_mem {c : List (String × Nat)} {k : String}
    (hk : k ∈ keys c) : (lookupKey c k).isSome := by
  by_contra hns
  exact (lookupKey_eq_none.mp (Option.not_isSome_iff_eq_none.mp hns)) hk

lemma mem_locks_after (locks : List String) (k : String) :
    k ∈ (if k ∈ locks then locks else locks ++ [k]) := by
  by_cases hk : k ∈ locks
  · rwa [if_pos hk]
  · rw [if_neg hk]
    exact List.mem_append_right _ (List.mem_singleton_self k)

lemma subset_locks_after (locks : List String) (k : String) :
    List.Subset locks (if k ∈ locks then locks else locks ++ [k]) := by
  by_cases hk : k ∈ locks
  · rw [if_pos hk]
    exact List.Subset.refl _
  · rw [if_neg hk]
    exact List.subset_append_left _ _

/-- Sanity check reproducing the spec's capacity-2 scenario: load `A`,
load `B`, access `A`, then inserting `C` evicts `B` and leaves `{A, C}`. -/
lemma lru_scenario_cap2 :
    keys (runT 2 [CacheOp.put "A" 10, CacheOp.put "B" 11, CacheOp.get "A"]).mc.cache
        = ["B", "A"] ∧
    (ModelCache.put (runT 2 [CacheOp.put "A" 10, CacheOp.put "B" 11, CacheOp.get "A"]).mc
        "C" 12).1 = some ("B", 11) ∧
    keys (ModelCache.put (runT 2 [CacheOp.put "A" 10, CacheOp.put "B" 11, CacheOp.get "A"]).mc
        "C" 12).2.cache = ["A", "C"] := by
  decide

lemma ModelCache.put_miss_evict_nil {s : ModelCache} {k : String} {h : Nat}
    (hl : lookupKey s.cache k = none) (hc : s.cache = [])
    (hcap : s.max_size ≤ s.cache.length) :
    ModelCache.put s k h =
      (none,
       { s with cache := [(k, h)], access_count := setKey s.access_count k 1 }) := by
  rw [ModelCache.put, if_neg (by simp [hl])]
  rw [hc] at hcap ⊢
  simp only [List.length_nil] at hcap
  simp [hcap]

lemma keys_put_subset (s : ModelCache) (k : String) (h : Nat) :
    ∀ a ∈ keys (ModelCache.put s k h).2.cache, a = k ∨ a ∈ keys s.cache := by
  intro a ha
  cases hl : lookupKey s.cache k with
  | some v =>
      simp only [ModelCache.put_hit hl] at ha
      rw [keys_move_to_end hl] at ha
      rcases List.mem_append.mp ha with h1 | h1
      · exact Or.inr ((keys_removeKey_sublist s.cache k).subset h1)
      · exact Or.inl (by simpa using h1)
  | none =>
      by_cases hcap : s.max_size ≤ s.cache.length
      · cases hc : s.cache with
        | nil =>
            simp only [ModelCache.put_miss_evict_nil hl hc hcap] at ha
            simp only [keys_cons, keys_nil] at ha
            exact Or.inl (by simpa using ha)
        | cons e rest =>
            simp only [ModelCache.put_miss_evict hl hc hcap] at ha
            simp only [keys_append, keys_cons, keys_nil] at ha
            rcases List.mem_append.mp ha with h1 | h1
            · exact Or.inr (by rw [keys_cons]; exact List.mem_cons_of_mem _ h1)
            · exact Or.inl (by simpa using h1)
      · simp only [ModelCache.put_miss_room hl hcap] at ha
        simp only [keys_append, keys_cons, keys_nil] at ha
        rcases List.mem_append.mp ha with h1 | h1
        · exact Or.inr h1
        · exact Or.inl (by simpa using h1)

lemma residentFilesExist_init (fe : String → Bool) (N : Nat) :
    ResidentFilesExist fe (initManager N) := by
  intro a ha
  simp [initManager, keys] at ha

lemma residentFilesExist_load (fe : String → Bool) (ld : Nat → String → Option Nat)
    (s : ModelManager) (k : String) (hs : ResidentFilesExist fe s) :
    ResidentFilesExist fe (ModelManager.load_model fe ld s k).2 := by
  intro a ha
  cases hm : lookupKey s.cache.cache k with
  | some v =>
      simp only [load_model_hit hm, ModelCache.get_hit hm] at ha
      rw [keys_move_to_end hm] at ha
      rcases List.mem_append.mp ha with h1 | h1
      · exact hs a ((keys_removeKey_sublist s.cache.cache k).subset h1)
      · have hak : a = k := by simpa using h1
        exact hak ▸ hs k (mem_keys_of_lookupKey hm)
  | none =>
      cases hfe : fe k with
      | false =>
          simp only [load_model_miss_notFound hm hfe] at ha
          exact hs a ha
      | true =>
          cases hld : ld s.loadCalls k with
          | none =>
              simp only [load_model_miss_fail hm hfe hld] at ha
              exact hs a ha
          | some h =>
              simp only [load_model_miss_ok hm hfe hld] at ha
              rcases keys_put_subset s.cache k h a ha with h1 | h1
              · exact h1 ▸ hfe
              · exact hs a h1

lemma residentFilesExist_unload (fe : String → Bool) (s : ModelManager) (k : String)
    (hs : ResidentFilesExist fe s) :
    ResidentFilesExist fe (ModelManager.unload_model s k) := by
  intro a ha
  by_cases hv : (lookupKey s.cache.cache k).isSome = true
  · simp only [ModelManager.unload_model, hv, if_true] at ha
    exact hs a ((keys_removeKey_sublist s.cache.cache k).subset ha)
  · simp only [ModelManager.unload_model, hv, if_false] at ha
    exact hs a ha

lemma residentFilesExist_shutdown (fe : String → Bool) (rf : String → Bool)
    (s : ModelManager) : ResidentFilesExist fe (ModelManager.shutdown rf s).2 := by
  intro a ha
  simp [ModelManager.shutdown, ModelCache.clear, keys] at ha

/-! ### The claims -/

/-- C1: for every capacity `N ≥ 1` and every sequence of `get` and `put`
operations starting from the empty cache, after each operation the cache
holds at most `N` entries, and whenever a `put` of a new name evicts, the
evicted entry is a resident entry whose last-access time — where both a
successful `get` and a `put` bump recency — is minimal among all resident
entries. -/
theorem C1_capacity_bound_and_lru_eviction (N : Nat) (hN : 1 ≤ N) (ops : List CacheOp) :
    (runT N ops).mc.cache.length ≤ N ∧
    ∀ k h e, (ModelCache.put (runT N ops).mc k h).1 = some e →
      e ∈ (runT N ops).mc.cache ∧
      ∀ p ∈ (runT N ops).mc.cache, (runT N ops).la e.1 ≤ (runT N ops).la p.1 := by
  have hinv := tinv_runT N hN ops
  constructor
  · have h := hinv.size_le
    rwa [runT_max_size] at h
  · intro k h e he
    exact evict_min hinv he

theorem C1_capacity_bound_and_lru_eviction_witness :
    (1 ≤ 1) ∧
    ((runT 1 [CacheOp.put "a" 0]).mc.cache.length ≤ 1 ∧
     ∀ k h e, (ModelCache.put (runT 1 [CacheOp.put "a" 0]).mc k h).1 = some e →
       e ∈ (runT 1 [CacheOp.put "a" 0]).mc.cache ∧
       ∀ p ∈ (runT 1 [CacheOp.put "a" 0]).mc.cache,
         (runT 1 [CacheOp.put "a" 0]).la e.1 ≤ (runT 1 [CacheOp.put "a" 0]).la p.1) :=
  ⟨Nat.le_refl 1, C1_capacity_bound_and_lru_eviction 1 (Nat.le_refl 1) [CacheOp.put "a" 0]⟩

/-- C3 (evaluating the code at the failing input): with `"m" ↦ 0`
resident, `put "m" 1` keeps the old handle `0` — the existing-name branch
of `ModelCache.put` (lines 84-85) only calls `move_to_end` and never
assigns the new instance — so the subsequent `get "m"` returns `0`, not
`1`, contrary to the claim (and to `put`'s docstring "Add or update a
model in the cache"). -/
theorem C3_put_existing_name_keeps_old_handle :
    (ModelCache.put ⟨2, [("m", 0)], [("m", 1)]⟩ "m" 1).2.cache = [("m", 0)] ∧
    (ModelCache.get (ModelCache.put ⟨2, [("m", 0)], [("m", 1)]⟩ "m" 1).2 "m").1 = some 0 ∧
    (ModelCache.get (ModelCache.put ⟨2, [("m", 0)], [("m", 1)]⟩ "m" 1).2 "m").1 ≠ some 1 := by
  decide

/-- C4: when the engine load for an uncached name fails, `load_model`
returns `loadFailed` and the cache component is exactly what it was
before the call; a subsequent `load_model` of the same name whose loader
now succeeds performs a fresh load (the loader-invocation counter grows
again) and returns the newly produced handle. -/
theorem C4_failed_load_leaves_no_entry (fe : String → Bool)
    (ld : Nat → String → Option Nat) (s : ModelManager) (k : String) (h' : Nat)
    (hm : lookupKey s.cache.cache k = none)
    (hfe : fe k = true)
    (hfail : ld s.loadCalls k = none)
    (hretry : ld (s.loadCalls + 1) k = some h') :
    (ModelManager.load_model fe ld s k).1 = LoadResult.loadFailed ∧
    (ModelManager.load_model fe ld s k).2.cache = s.cache ∧
    (ModelManager.load_model fe ld (ModelManager.load_model fe ld s k).2 k).1
        = LoadResult.ok h' ∧
    (ModelManager.load_model fe ld (ModelManager.load_model fe ld s k).2 k).2.loadCalls
        = s.loadCalls + 2 := by
  simp only [load_model_miss_fail hm hfe hfail]
  have e2 := @load_model_miss_ok fe ld
    { cache := s.cache
      loading_locks := if k ∈ s.loading_locks then s.loading_locks else s.loading_locks ++ [k]
      loadCalls := s.loadCalls + 1 } k h' hm hfe hretry
  simp only [e2]
  exact ⟨trivial, trivial, trivial, trivial⟩

theorem C4_failed_load_leaves_no_entry_witness :
    (lookupKey (initManager 2).cache.cache "m" = none ∧
     (fun _ : String => true) "m" = true ∧
     (fun n (_ : String) => if n = 0 then none else some 7) (initManager 2).loadCalls "m"
        = none ∧
     (fun n (_ : String) => if n = 0 then none else some 7) ((initManager 2).loadCalls + 1) "m"
        = some 7) ∧
    ((ModelManager.load_model (fun _ => true)
        (fun n _ => if n = 0 then none else some 7) (initManager 2) "m").1
        = LoadResult.loadFailed ∧
     (ModelManager.load_model (fun _ => true)
        (fun n _ => if n = 0 then none else some 7) (initManager 2) "m").2.cache
        = (initManager 2).cache ∧
     (ModelManager.load_model (fun _ => true) (fun n _ => if n = 0 then none else some 7)
        (ModelManager.load_model (fun _ => true)
          (fun n _ => if n = 0 then none else some 7) (initManager 2) "m").2 "m").1
        = LoadResult.ok 7 ∧
     (ModelManager.load_model (fun _ => true) (fun n _ => if n = 0 then none else some 7)
        (ModelManager.load_model (fun _ => true)
          (fun n _ => if n = 0 then none else some 7) (initManager 2) "m").2 "m").2.loadCalls
        = (initManager 2).loadCalls + 2) :=
  ⟨⟨rfl, rfl, rfl, rfl⟩,
   C4_failed_load_leaves_no_entry (fun _ => true)
     (fun n _ => if n = 0 then none else some 7) (initManager 2) "m" 7
     rfl rfl rfl rfl⟩

/-- C5 counterexample: after a successful `load_model "m"` on a fresh
manager completes, the ticket table `loading_locks` still contains `"m"`
— the code creates the per-name lock (lines 137-138) but never deletes
it, so a coordination token for `"m"` remains after the operation
returns, contrary to the claim that the ticket is removed. -/
theorem C5_ticket_remains_counterexample :
    (ModelManager.load_model (fun _ => true) (fun _ _ => some 7)
        (initManager 2) "m").2.loading_locks = ["m"] ∧
    "m" ∈ (ModelManager.load_model (fun _ => true) (fun _ _ => some 7)
        (initManager 2) "m").2.loading_locks := by
  decide

/-- C5 amended: when a load coordinated through the per-name lock
completes — success or failure — the lock is released but its entry is
never removed from the `loading_locks` table: `load_model` preserves all
existing entries and, whenever the name was not cached at entry (so the
coordinator was reached), leaves the name's entry present; `unload_model`
and `shutdown` never touch the table.  The table's key set therefore only
grows. -/
theorem C5_ticket_table_only_grows (fe : String → Bool)
    (ld : Nat → String → Option Nat) (s : ModelManager) (k : String) :
    List.Subset s.loading_locks (ModelManager.load_model fe ld s k).2.loading_locks ∧
    (lookupKey s.cache.cache k = none →
      k ∈ (ModelManager.load_model fe ld s k).2.loading_locks) ∧
    (ModelManager.unload_model s k).loading_locks = s.loading_locks ∧
    (∀ rf, (ModelManager.shutdown rf s).2.loading_locks = s.loading_locks) := by
  refine ⟨?_, ?_, unload_model_locks s k, fun rf => rfl⟩
  · cases hm : lookupKey s.cache.cache k with
    | some v =>
        rw [load_model_hit hm]
        exact List.Subset.refl _
    | none =>
        cases hfe : fe k with
        | false =>
            rw [load_model_miss_notFound hm hfe]
            exact subset_locks_after _ _
        | true =>
            cases hld : ld s.loadCalls k with
            | none =>
                rw [load_model_miss_fail hm hfe hld]
                exact subset_locks_after _ _
            | some h =>
                rw [load_model_miss_ok hm hfe hld]
                exact subset_locks_after _ _
  · intro hm
    cases hfe : fe k with
    | false =>
        rw [load_model_miss_notFound hm hfe]
        exact mem_locks_after _ _
    | true =>
        cases hld : ld s.loadCalls k with
        | none =>
            rw [load_model_miss_fail hm hfe hld]
            exact mem_locks_after _ _
        | some h =>
            rw [load_model_miss_ok hm hfe hld]
            exact mem_locks_after _ _

theorem C5_ticket_table_only_grows_witness :
    lookupKey (initManager 2).cache.cache "m" = none ∧
    "m" ∈ (ModelManager.load_model (fun _ => true) (fun _ _ => some 5)
        (initManager 2) "m").2.loading_locks :=
  ⟨rfl,
   (C5_ticket_table_only_grows (fun _ => true) (fun _ _ => some 5)
      (initManager 2) "m").2.1 rfl⟩

/-- C6: `shutdown` and `clear_all` (the `/v1/cache/clear` endpoint)
perform the identical state transformation: both attempt to release each
previously resident entry exactly once, the outcome — entries released
and final state — is independent of which releases fail, and the cache
(entries and access counts) is left empty; on a manager that never loaded
anything the released list is empty and the call is a harmless no-op. -/
theorem C6_shutdown_equals_clear_all (rf rf' : String → Bool) (s : ModelManager) :
    ModelManager.shutdown rf s = ModelManager.clear_all rf s ∧
    ((ModelManager.shutdown rf s).1).map Prod.fst = s.cache.cache ∧
    (ModelManager.shutdown rf s).2 = (ModelManager.shutdown rf' s).2 ∧
    (ModelManager.shutdown rf s).2.cache.cache = [] ∧
    (ModelManager.shutdown rf s).2.cache.access_count = [] :=
  ⟨rfl, releaseAll_map_fst rf s.cache.cache, rfl, rfl, rfl⟩

/-- C7: in any state where every resident model's backing file exists
(which holds in all states reachable under a fixed filesystem, see the
`residentFilesExist_*` lemmas), `load_model` raises `FileNotFoundError`
exactly when the name's file does not exist — and then the engine loader
is not invoked — raises `LoadFailed` exactly when the file exists, the
name is not cached, and the engine load fails, and in every other case
returns a handle. -/
theorem C7_acquire_failure_classification (fe : String → Bool)
    (ld : Nat → String → Option Nat) (s : ModelManager) (k : String)
    (hres : ResidentFilesExist fe s) :
    ((ModelManager.load_model fe ld s k).1 = LoadResult.notFound ↔ fe k = false) ∧
    (fe k = false → (ModelManager.load_model fe ld s k).2.loadCalls = s.loadCalls) ∧
    ((ModelManager.load_model fe ld s k).1 = LoadResult.loadFailed ↔
       (fe k = true ∧ lookupKey s.cache.cache k = none ∧ ld s.loadCalls k = none)) ∧
    ((fe k = true ∧ ¬(lookupKey s.cache.cache k = none ∧ ld s.loadCalls k = none)) →
       ∃ h, (ModelManager.load_model fe ld s k).1 = LoadResult.ok h) := by
  cases hm : lookupKey s.cache.cache k with
  | some v =>
      have hfek : fe k = true := hres k (mem_keys_of_lookupKey hm)
      refine ⟨?_, ?_, ?_, ?_⟩
      · simp [load_model_hit hm, hfek]
      · simp [hfek]
      · simp [load_model_hit hm, hm]
      · intro _
        exact ⟨v, by simp [load_model_hit hm]⟩
  | none =>
      cases hfe : fe k with
      | false =>
          refine ⟨?_, ?_, ?_, ?_⟩
          · simp [load_model_miss_notFound hm hfe, hfe]
          · simp [load_model_miss_notFound hm hfe]
          · simp [load_model_miss_notFound hm hfe, hfe]
          · rintro ⟨h1, _⟩
            exact Bool.noConfusion h1
      | true =>
          cases hld : ld s.loadCalls k with
          | none =>
              refine ⟨?_, ?_, ?_, ?_⟩
              · simp [load_model_miss_fail hm hfe hld, hfe]
              · simp [hfe]
              · simp [load_model_miss_fail hm hfe hld, hfe, hm, hld]
              · rintro ⟨_, hcon⟩
                exact absurd ⟨rfl, rfl⟩ hcon
          | some h =>
              refine ⟨?_, ?_, ?_, ?_⟩
              · simp [load_model_miss_ok hm hfe hld, hfe]
              · simp [hfe]
              · simp [load_model_miss_ok hm hfe hld, hld]
              · intro _
                exact ⟨h, by simp [load_model_miss_ok hm hfe hld]⟩

theorem C7_acquire_failure_classification_witness :
    ResidentFilesExist (fun _ => false) (initManager 1) ∧
    (((ModelManager.load_model (fun _ => false) (fun _ _ => none)
        (initManager 1) "m").1 = LoadResult.notFound ↔ (fun _ : String => false) "m" = false) ∧
     ((fun _ : String => false) "m" = false →
       (ModelManager.load_model (fun _ => false) (fun _ _ => none)
         (initManager 1) "m").2.loadCalls = (initManager 1).loadCalls) ∧
     ((ModelManager.load_model (fun _ => false) (fun _ _ => none)
        (initManager 1) "m").1 = LoadResult.loadFailed ↔
        ((fun _ : String => false) "m" = true ∧
         lookupKey (initManager 1).cache.cache "m" = none ∧
         (fun _ : Nat => fun _ : String => (none : Option Nat)) (initManager 1).loadCalls "m"
           = none)) ∧
     (((fun _ : String => false) "m" = true ∧
       ¬(lookupKey (initManager 1).cache.cache "m" = none ∧
         (fun _ : Nat => fun _ : String => (none : Option Nat)) (initManager 1).loadCalls "m"
           = none)) →
        ∃ h, (ModelManager.load_model (fun _ => false) (fun _ _ => none)
          (initManager 1) "m").1 = LoadResult.ok h)) :=
  ⟨residentFilesExist_init (fun _ => false) 1,
   C7_acquire_failure_classification (fun _ => false) (fun _ _ => none) (initManager 1) "m"
     (residentFilesExist_init (fun _ => false) 1)⟩

/-- C8: from any state with unique cache keys in which the name is
resident, `unload_model` followed by `load_model` (the file exists and
the loader now produces `h'`) invokes the engine loader again — the
invocation counter grows — and returns the freshly loaded handle, not the
previously cached one. -/
theorem C8_unload_then_load_is_fresh (fe : String → Bool)
    (ld : Nat → String → Option Nat) (s : ModelManager) (k : String) (v h' : Nat)
    (hnd : (keys s.cache.cache).Nodup)
    (hres : lookupKey s.cache.cache k = some v)
    (hfe : fe k = true)
    (hld : ld s.loadCalls k = some h') :
    (ModelManager.load_model fe ld (ModelManager.unload_model s k) k).1
        = LoadResult.ok h' ∧
    (ModelManager.load_model fe ld (ModelManager.unload_model s k) k).2.loadCalls
        = s.loadCalls + 1 := by
  rw [unload_model_hit hres]
  have hm : lookupKey (removeKey s.cache.cache k) k = none :=
    lookupKey_removeKey_self hnd
  have e2 := @load_model_miss_ok fe ld
    { s with cache := { s.cache with cache := removeKey s.cache.cache k } } k h'
    hm hfe hld
  simp only [e2]
  exact ⟨trivial, trivial⟩

theorem C8_unload_then_load_is_fresh_witness :
    ((keys sampleManager.cache.cache).Nodup ∧
     lookupKey sampleManager.cache.cache "m" = some 3 ∧
     (fun _ : String => true) "m" = true ∧
     (fun _ : Nat => fun _ : String => some 9) sampleManager.loadCalls "m" = some 9) ∧
    ((ModelManager.load_model (fun _ => true) (fun _ _ => some 9)
        (ModelManager.unload_model sampleManager "m") "m").1 = LoadResult.ok 9 ∧
     (ModelManager.load_model (fun _ => true) (fun _ _ => some 9)
        (ModelManager.unload_model sampleManager "m") "m").2.loadCalls
        = sampleManager.loadCalls + 1) :=
  ⟨⟨by decide, by decide, rfl, rfl⟩,
   C8_unload_then_load_is_fresh (fun _ => true) (fun _ _ => some 9)
     sampleManager "m" 3 9 (by decide) (by decide) rfl rfl⟩

/-- C10: removing a name from the cache by LRU eviction (during `put`) or
by `unload_model` leaves its `access_count` entry untouched — the stale
entry persists — and only `clear` empties the access-count map, so the
access-count key set can strictly exceed the set of resident models (at
capacity 1, after `put a; put b`, `a` still has an access count but is no
longer resident). -/
theorem C10_stale_access_counts (s : ModelCache) (k : String) (h : Nat)
    (e : String × Nat) (mgr : ModelManager) (m : String)
    (hev : (ModelCache.put s k h).1 = some e) :
    lookupKey (ModelCache.put s k h).2.access_count e.1
        = lookupKey s.access_count e.1 ∧
    (ModelManager.unload_model mgr m).cache.access_count = mgr.cache.access_count ∧
    (∀ rf, (ModelCache.clear rf s).2.access_count = []) ∧
    (lookupKey (runT 1 [CacheOp.put "a" 0, CacheOp.put "b" 1]).mc.access_count "a"
        = some 1 ∧
     lookupKey (runT 1 [CacheOp.put "a" 0, CacheOp.put "b" 1]).mc.cache "a" = none) := by
  refine ⟨?_, unload_model_access_count mgr m, fun rf => rfl, by decide⟩
  cases hl : lookupKey s.cache k with
  | some v =>
      rw [ModelCache.put_hit hl] at hev
      cases hev
  | none =>
      by_cases hcap : s.max_size ≤ s.cache.length
      · cases hc : s.cache with
        | nil =>
            rw [ModelCache.put_miss_evict_nil hl hc hcap] at hev
            cases hev
        | cons e' rest =>
            simp only [ModelCache.put_miss_evict hl hc hcap, Option.some.injEq] at hev
            simp only [ModelCache.put_miss_evict hl hc hcap]
            apply lookupKey_setKey_ne
            intro hcontra
            apply lookupKey_eq_none.mp hl
            rw [hc, keys_cons, ← hcontra, hev]
            exact List.mem_cons_self _ _
      · rw [ModelCache.put_miss_room hl hcap] at hev
        cases hev

/-! ### Invariants of the concurrent interpreter -/

lemma pcs_update_self {n : Nat} (f : Fin n → PC) (i : Fin n) (p : PC) :
    Function.update f i p i = p := Function.update_same i p f

lemma pcs_update_ne {n : Nat} (f : Fin n → PC) {i j : Fin n} (p : PC) (hij : j ≠ i) :
    Function.update f i p j = f j := Function.update_noteq hij p f

/-- Two callers inside the lock-protected region coincide. -/
lemma region_unique {n : Nat} {s : CSys n} (hs : CInv s) {i j : Fin n}
    (hi : InRegion (s.pcs i)) (hj : InRegion (s.pcs j)) : i = j :=
  Option.some.inj ((hs.region i hi).symm.trans (hs.region j hj))

/-- Shared-state-preserving step of caller `i` to a non-region program
counter preserves the lock invariant. -/
lemma cinv_mk_same {n : Nat} {s s' : CSys n} (hs : CInv s) (i : Fin n) (p : PC)
    (hpcs : s'.pcs = Function.update s.pcs i p)
    (hcache : s'.cache = s.cache) (hlock : s'.lockHeld = s.lockHeld)
    (hnr : ¬ InRegion p) : CInv s' := by
  refine ⟨?_, ?_, ?_⟩
  · intro j hj
    rw [hpcs] at hj
    by_cases hij : j = i
    · subst hij
      rw [pcs_update_self] at hj
      exact absurd hj hnr
    · rw [pcs_update_ne _ _ hij] at hj
      rw [hlock]
      exact hs.region j hj
  · intro j hj
    rw [hpcs] at hj
    by_cases hij : j = i
    · subst hij
      rw [pcs_update_self] at hj
      exact absurd (hj ▸ trivial) hnr
    · rw [pcs_update_ne _ _ hij] at hj
      rw [hcache]
      exact hs.loadNone j hj
  · intro j h' hj
    rw [hpcs] at hj
    by_cases hij : j = i
    · subst hij
      rw [pcs_update_self] at hj
      exact absurd (hj ▸ trivial) hnr
    · rw [pcs_update_ne _ _ hij] at hj
      rw [hcache]
      exact hs.insertNone j h' hj
  -- the `hj ▸ trivial` coercions: when `p` is `doLoad`/`insert _`, `hj`
  -- rewrites `InRegion p` to `True`, contradicting `hnr`

/-- A caller leaving the region while releasing the lock preserves the
lock invariant (error path, cache-hit return, normal return). -/
lemma cinv_mk_release {n : Nat} {s s' : CSys n} (hs : CInv s) (i : Fin n) (p : PC)
    (hir : InRegion (s.pcs i))
    (hpcs : s'.pcs = Function.update s.pcs i p)
    (hcache : s'.cache = s.cache)
    (hnr : ¬ InRegion p) : CInv s' := by
  refine ⟨?_, ?_, ?_⟩
  · intro j hj
    rw [hpcs] at hj
    by_cases hij : j = i
    · subst hij
      rw [pcs_update_self] at hj
      exact absurd hj hnr
    · rw [pcs_update_ne _ _ hij] at hj
      exact absurd (region_unique hs hj hir) hij
  · intro j hj
    rw [hpcs] at hj
    by_cases hij : j = i
    · subst hij
      rw [pcs_update_self] at hj
      exact absurd (hj ▸ trivial) hnr
    · rw [pcs_update_ne _ _ hij] at hj
      rw [hcache]
      exact hs.loadNone j hj
  · intro j h' hj
    rw [hpcs] at hj
    by_cases hij : j = i
    · subst hij
      rw [pcs_update_self] at hj
      exact absurd (hj ▸ trivial) hnr
    · rw [pcs_update_ne _ _ hij] at hj
      rw [hcache]
      exact hs.insertNone j h' hj

lemma cinv_stepOf {n : Nat} (ld : Nat → Option Nat) {s : CSys n}
    (hs : CInv s) (i : Fin n) : CInv (stepOf ld s i) := by
  cases hpc : s.pcs i with
  | start =>
      cases hc : s.cache with
      | some c =>
          simp only [stepOf, hpc, hc]
          exact cinv_mk_same hs i _ rfl rfl rfl (by simp [InRegion])
      | none =>
          simp only [stepOf, hpc, hc]
          exact cinv_mk_same hs i _ rfl rfl rfl (by simp [InRegion])
  | ensure =>
      simp only [stepOf, hpc]
      exact cinv_mk_same hs i _ rfl rfl rfl (by simp [InRegion])
  | acq =>
      cases hl : s.lockHeld with
      | some j =>
          simp only [stepOf, hpc, hl]
          exact hs
      | none =>
          simp only [stepOf, hpc, hl]
          refine ⟨?_, ?_, ?_⟩
          · intro j hj
            simp only [setPC, Function.update_apply] at hj
            by_cases hij : j = i
            · simp [hij]
            · rw [if_neg hij] at hj
              exact absurd ((hs.region j hj).symm.trans hl) (Option.some_ne_none j)
          · intro j hj
            simp only [setPC, Function.update_apply] at hj
            by_cases hij : j = i
            · rw [if_pos hij] at hj
              cases hj
            · rw [if_neg hij] at hj
              exact hs.loadNone j hj
          · intro j h' hj
            simp only [setPC, Function.update_apply] at hj
            by_cases hij : j = i
            · rw [if_pos hij] at hj
              cases hj
            · rw [if_neg hij] at hj
              exact hs.insertNone j h' hj
  | check2 =>
      have hir : InRegion (s.pcs i) := by rw [hpc]; trivial
      cases hc : s.cache with
      | some c =>
          simp only [stepOf, hpc, hc]
          exact cinv_mk_release hs i _ hir rfl rfl (by simp [InRegion])
      | none =>
          simp only [stepOf, hpc, hc]
          refine ⟨?_, ?_, ?_⟩
          · intro j hj
            simp only [setPC, Function.update_apply] at hj
            by_cases hij : j = i
            · subst hij
              exact hs.region _ hir
            · rw [if_neg hij] at hj
              exact hs.region j hj
          · intro j hj
            exact hc
          · intro j h' hj
            simp only [setPC, Function.update_apply] at hj
            by_cases hij : j = i
            · rw [if_pos hij] at hj
              cases hj
            · rw [if_neg hij] at hj
              exact hs.insertNone j h' hj
  | doLoad =>
      have hir : InRegion (s.pcs i) := by rw [hpc]; trivial
      have hcn : s.cache = none := hs.loadNone i hpc
      cases hm : ld (s.loadCalls + 1) with
      | some c =>
          simp only [stepOf, hpc, hm]
          refine ⟨?_, ?_, ?_⟩
          · intro j hj
            simp only [setPC, Function.update_apply] at hj
            by_cases hij : j = i
            · subst hij
              exact hs.region _ hir
            · rw [if_neg hij] at hj
              exact hs.region j hj
          · intro j hj
            exact hcn
          · intro j h' hj
            exact hcn
      | none =>
          simp only [stepOf, hpc, hm]
          exact cinv_mk_release hs i _ hir rfl rfl (by simp [InRegion])
  | insert c =>
      have hir : InRegion (s.pcs i) := by rw [hpc]; trivial
      simp only [stepOf, hpc]
      refine ⟨?_, ?_, ?_⟩
      · intro j hj
        simp only [setPC, Function.update_apply] at hj
        by_cases hij : j = i
        · subst hij
          exact hs.region _ hir
        · rw [if_neg hij] at hj
          exact hs.region j hj
      · intro j hj
        simp only [setPC, Function.update_apply] at hj
        by_cases hij : j = i
        · rw [if_pos hij] at hj
          cases hj
        · rw [if_neg hij] at hj
          have hjr : InRegion (s.pcs j) := by rw [hj]; trivial
          exact absurd (region_unique hs hjr hir) hij
      · intro j h' hj
        simp only [setPC, Function.update_apply] at hj
        by_cases hij : j = i
        · rw [if_pos hij] at hj
          cases hj
        · rw [if_neg hij] at hj
          have hjr : InRegion (s.pcs j) := by rw [hj]; trivial
          exact absurd (region_unique hs hjr hir) hij
  | rel c =>
      have hir : InRegion (s.pcs i) := by rw [hpc]; trivial
      simp only [stepOf, hpc]
      exact cinv_mk_release hs i _ hir rfl rfl (by simp [InRegion])
  | done r =>
      simp only [stepOf, hpc]
      exact hs

lemma cinv_init (n : Nat) : CInv (initSys n) := by
  refine ⟨?_, ?_, ?_⟩
  · intro j hj
    simp [initSys, InRegion] at hj
  · intro j hj
    rfl
  · intro j h' hj
    simp [initSys] at hj

lemma cinv_exec {n : Nat} (ld : Nat → Option Nat) (sched : List (Fin n))
    {s : CSys n} (hs : CInv s) : CInv (exec ld sched s) := by
  induction sched generalizing s with
  | nil => exact hs
  | cons i rest ih => exact ih (cinv_stepOf ld hs i)

/-- Once the name is resident, no step can change the cache entry or
issue another load. -/
lemma cache_frozen_step {n : Nat} (ld : Nat → Option Nat) {s : CSys n}
    (hs : CInv s) {h : Nat} (hc : s.cache = some h) (i : Fin n) :
    (stepOf ld s i).cache = some h ∧ (stepOf ld s i).loadCalls = s.loadCalls := by
  cases hpc : s.pcs i with
  | start => simp [stepOf, hpc, hc, setPC]
  | ensure => simp [stepOf, hpc, setPC, hc]
  | acq => cases hl : s.lockHeld <;> simp [stepOf, hpc, hl, setPC, hc]
  | check2 => simp [stepOf, hpc, hc, setPC]
  | doLoad => exact Option.noConfusion ((hs.loadNone i hpc).symm.trans hc)
  | insert c => exact Option.noConfusion ((hs.insertNone i c hpc).symm.trans hc)
  | rel c => simp [stepOf, hpc, setPC, hc]
  | done r => simp [stepOf, hpc, hc]

lemma cache_frozen_exec {n : Nat} (ld : Nat → Option Nat) (sched : List (Fin n))
    {s : CSys n} (hs : CInv s) {h : Nat} (hc : s.cache = some h) :
    (exec ld sched s).cache = some h ∧ (exec ld sched s).loadCalls = s.loadCalls := by
  induction sched generalizing s with
  | nil => exact ⟨hc, rfl⟩
  | cons i rest ih =>
      obtain ⟨h1, h2⟩ := cache_frozen_step ld hs hc i
      obtain ⟨h3, h4⟩ := ih (cinv_stepOf ld hs i) h1
      exact ⟨h3, h4.trans h2⟩

/-- C9: in every execution of concurrent `load_model` callers, once the
model is resident (has a cache entry) no caller is at the point of
issuing a load — a load is only issued after the caller's in-lock cache
re-check missed — and every continuation of the execution keeps the entry
and issues no further load, i.e. a resident model is never reloaded
without first leaving the cache (and no step of this model removes it). -/
theorem C9_resident_never_reloaded {n : Nat} (ld : Nat → Option Nat)
    (sched more : List (Fin n)) (h : Nat)
    (hres : (exec ld sched (initSys n)).cache = some h) :
    (∀ i, (exec ld sched (initSys n)).pcs i ≠ PC.doLoad) ∧
    (exec ld more (exec ld sched (initSys n))).cache = some h ∧
    (exec ld more (exec ld sched (initSys n))).loadCalls
        = (exec ld sched (initSys n)).loadCalls := by
  have hinv : CInv (exec ld sched (initSys n)) := cinv_exec ld sched (cinv_init n)
  refine ⟨?_, ?_, ?_⟩
  · intro i hpc
    exact Option.noConfusion ((hinv.loadNone i hpc).symm.trans hres)
  · exact (cache_frozen_exec ld more hinv hres).1
  · exact (cache_frozen_exec ld more hinv hres).2

theorem C9_resident_never_reloaded_witness :
    ((exec (fun _ => some 5) [0, 0, 0, 0, 0, 0] (initSys 1)).cache = some 5) ∧
    ((∀ i, (exec (fun _ => some 5) [0, 0, 0, 0, 0, 0] (initSys 1)).pcs i ≠ PC.doLoad) ∧
     (exec (fun _ => some 5) [0]
        (exec (fun _ => some 5) [0, 0, 0, 0, 0, 0] (initSys 1))).cache = some 5 ∧
     (exec (fun _ => some 5) [0]
        (exec (fun _ => some 5) [0, 0, 0, 0, 0, 0] (initSys 1))).loadCalls
        = (exec (fun _ => some 5) [0, 0, 0, 0, 0, 0] (initSys 1)).loadCalls) :=
  ⟨by decide, C9_resident_never_reloaded (fun _ => some 5) [0, 0, 0, 0, 0, 0] [0] 5
     (by decide)⟩

/-! ### The success invariant for concurrent callers (claim C2) -/

/-- Transfer of the success invariant along a step that only moves caller
`i` to a program counter that is none of `insert`, `rel`, `done`,
`doLoad`, while caller `i` was not at `insert`/`rel`. -/
lemma cok_transfer {n : Nat} {h : Nat} {s s' : CSys n} (hs : COk h s) (i : Fin n)
    (p : PC)
    (hpcs : s'.pcs = Function.update s.pcs i p)
    (hcache : s'.cache = s.cache) (hcalls : s'.loadCalls = s.loadCalls)
    (hpi : ∀ h', p ≠ PC.insert h') (hpr : ∀ h', p ≠ PC.rel h')
    (hpd : ∀ r, p ≠ PC.done r) (hpl : p ≠ PC.doLoad)
    (hii : ∀ h', s.pcs i ≠ PC.insert h') (hir : ∀ h', s.pcs i ≠ PC.rel h') :
    COk h s' := by
  refine ⟨?_, ?_, ?_, ?_, ?_, ?_, ?_⟩
  · rw [hcalls]
    exact hs.calls_le
  · intro c hcc
    rw [hcache] at hcc
    rw [hcalls]
    exact hs.cache_val c hcc
  · intro j h' hj
    rw [hpcs] at hj
    rw [hcalls]
    by_cases hij : j = i
    · rw [hij, pcs_update_self] at hj
      exact absurd hj (hpi h')
    · rw [pcs_update_ne _ _ hij] at hj
      exact hs.ins_val j h' hj
  · intro j h' hj
    rw [hpcs] at hj
    rw [hcalls, hcache]
    by_cases hij : j = i
    · rw [hij, pcs_update_self] at hj
      exact absurd hj (hpr h')
    · rw [pcs_update_ne _ _ hij] at hj
      exact hs.rel_val j h' hj
  · intro j r hj
    rw [hpcs] at hj
    rw [hcalls]
    by_cases hij : j = i
    · rw [hij, pcs_update_self] at hj
      exact absurd hj (hpd r)
    · rw [pcs_update_ne _ _ hij] at hj
      exact hs.done_val j r hj
  · intro j hj
    rw [hpcs] at hj
    rw [hcalls]
    by_cases hij : j = i
    · rw [hij, pcs_update_self] at hj
      exact absurd hj hpl
    · rw [pcs_update_ne _ _ hij] at hj
      exact hs.load_zero j hj
  · intro h1
    rw [hcalls] at h1
    rcases hs.calls_rev h1 with hcv | ⟨j, hj⟩
    · rw [hcache]
      exact Or.inl hcv
    · have hji : j ≠ i := by
        intro hji
        rw [hji] at hj
        rcases hj with hj | hj
        · exact hii h hj
        · exact hir h hj
      refine Or.inr ⟨j, ?_⟩
      rw [hpcs, pcs_update_ne _ _ hji]
      exact hj

/-- Transfer of the success invariant along a finishing step: caller `i`
returns `ok c` with `c = h`, one load already done and the handle
resident. -/
lemma cok_finish {n : Nat} {h : Nat} {s s' : CSys n} (hs : COk h s) (i : Fin n)
    (c : Nat) (hch : c = h) (h1 : s.loadCalls = 1) (hsc : s.cache = some h)
    (hpcs : s'.pcs = Function.update s.pcs i (PC.done (CRes.ok c)))
    (hcache : s'.cache = s.cache) (hcalls : s'.loadCalls = s.loadCalls) :
    COk h s' := by
  subst hch
  refine ⟨?_, ?_, ?_, ?_, ?_, ?_, ?_⟩
  · rw [hcalls]
    exact hs.calls_le
  · intro c' hcc
    rw [hcache] at hcc
    rw [hcalls]
    exact hs.cache_val c' hcc
  · intro j h' hj
    rw [hpcs] at hj
    rw [hcalls]
    by_cases hij : j = i
    · rw [hij, pcs_update_self] at hj
      cases hj
    · rw [pcs_update_ne _ _ hij] at hj
      exact hs.ins_val j h' hj
  · intro j h' hj
    rw [hpcs] at hj
    rw [hcalls, hcache]
    by_cases hij : j = i
    · rw [hij, pcs_update_self] at hj
      cases hj
    · rw [pcs_update_ne _ _ hij] at hj
      exact hs.rel_val j h' hj
  · intro j r hj
    rw [hpcs] at hj
    rw [hcalls]
    by_cases hij : j = i
    · rw [hij, pcs_update_self] at hj
      cases hj
      exact ⟨rfl, h1⟩
    · rw [pcs_update_ne _ _ hij] at hj
      exact hs.done_val j r hj
  · intro j hj
    rw [hpcs] at hj
    rw [hcalls]
    by_cases hij : j = i
    · rw [hij, pcs_update_self] at hj
      cases hj
    · rw [pcs_update_ne _ _ hij] at hj
      exact hs.load_zero j hj
  · intro _
    rw [hcache]
    exact Or.inl hsc

lemma cok_stepOf {n : Nat} {ld : Nat → Option Nat} {h : Nat} (hld : ld 1 = some h)
    {s : CSys n} (hinv : CInv s) (hs : COk h s) (i : Fin n) :
    COk h (stepOf ld s i) := by
  cases hpc : s.pcs i with
  | start =>
      cases hc : s.cache with
      | some c =>
          obtain ⟨hch, h1⟩ := hs.cache_val c hc
          simp only [stepOf, hpc, hc]
          exact cok_finish hs i c hch h1 (hch ▸ hc) rfl rfl rfl
      | none =>
          simp only [stepOf, hpc, hc]
          exact cok_transfer hs i PC.ensure rfl rfl rfl
            (fun h' hcon => PC.noConfusion hcon) (fun h' hcon => PC.noConfusion hcon)
            (fun r hcon => PC.noConfusion hcon) (fun hcon => PC.noConfusion hcon)
            (fun h' hcon => PC.noConfusion (hpc.symm.trans hcon))
            (fun h' hcon => PC.noConfusion (hpc.symm.trans hcon))
  | ensure =>
      simp only [stepOf, hpc]
      exact cok_transfer hs i PC.acq rfl rfl rfl
        (fun h' hcon => PC.noConfusion hcon) (fun h' hcon => PC.noConfusion hcon)
        (fun r hcon => PC.noConfusion hcon) (fun hcon => PC.noConfusion hcon)
        (fun h' hcon => PC.noConfusion (hpc.symm.trans hcon))
        (fun h' hcon => PC.noConfusion (hpc.symm.trans hcon))
  | acq =>
      cases hl : s.lockHeld with
      | some j0 =>
          simp only [stepOf, hpc, hl]
          exact hs
      | none =>
          simp only [stepOf, hpc, hl]
          exact cok_transfer hs i PC.check2 rfl rfl rfl
            (fun h' hcon => PC.noConfusion hcon) (fun h' hcon => PC.noConfusion hcon)
            (fun r hcon => PC.noConfusion hcon) (fun hcon => PC.noConfusion hcon)
            (fun h' hcon => PC.noConfusion (hpc.symm.trans hcon))
            (fun h' hcon => PC.noConfusion (hpc.symm.trans hcon))
  | check2 =>
      have hir : InRegion (s.pcs i) := by rw [hpc]; trivial
      cases hc : s.cache with
      | some c =>
          obtain ⟨hch, h1⟩ := hs.cache_val c hc
          simp only [stepOf, hpc, hc]
          exact cok_finish hs i c hch h1 (hch ▸ hc) rfl rfl rfl
      | none =>
          have hz : s.loadCalls = 0 := by
            by_contra hnz
            have h1 : s.loadCalls = 1 := by
              have := hs.calls_le
              omega
            rcases hs.calls_rev h1 with hcv | ⟨j, hj⟩
            · rw [hc] at hcv
              cases hcv
            · have hjr : InRegion (s.pcs j) := by
                rcases hj with hj | hj <;> rw [hj] <;> trivial
              have hji := region_unique hinv hjr hir
              rw [hji, hpc] at hj
              rcases hj with hj | hj <;> cases hj
          simp only [stepOf, hpc, hc]
          refine ⟨?_, ?_, ?_, ?_, ?_, ?_, ?_⟩
          · exact hs.calls_le
          · intro c hcc
            have hcc' : s.cache = some c := hcc
            rw [hc] at hcc'
            cases hcc'
          · intro j h' hj
            have hj' : Function.update s.pcs i PC.doLoad j = PC.insert h' := hj
            by_cases hij : j = i
            · rw [hij, pcs_update_self] at hj'
              cases hj'
            · rw [pcs_update_ne _ _ hij] at hj'
              exact hs.ins_val j h' hj'
          · intro j h' hj
            have hj' : Function.update s.pcs i PC.doLoad j = PC.rel h' := hj
            by_cases hij : j = i
            · rw [hij, pcs_update_self] at hj'
              cases hj'
            · rw [pcs_update_ne _ _ hij] at hj'
              exact hs.rel_val j h' hj'
          · intro j r hj
            have hj' : Function.update s.pcs i PC.doLoad j = PC.done r := hj
            by_cases hij : j = i
            · rw [hij, pcs_update_self] at hj'
              cases hj'
            · rw [pcs_update_ne _ _ hij] at hj'
              exact hs.done_val j r hj'
          · intro j hj
            have hj' : Function.update s.pcs i PC.doLoad j = PC.doLoad := hj
            by_cases hij : j = i
            · exact hz
            · rw [pcs_update_ne _ _ hij] at hj'
              exact hs.load_zero j hj'
          · intro h1
            have h1' : s.loadCalls = 1 := h1
            exact absurd (hz ▸ h1') (by decide)
  | doLoad =>
      have hz : s.loadCalls = 0 := hs.load_zero i hpc
      have hir : InRegion (s.pcs i) := by rw [hpc]; trivial
      have hcn : s.cache = none := hinv.loadNone i hpc
      have hm1 : ld (s.loadCalls + 1) = some h := by
        rw [hz]
        exact hld
      simp only [stepOf, hpc, hm1]
      refine ⟨?_, ?_, ?_, ?_, ?_, ?_, ?_⟩
      · show s.loadCalls + 1 ≤ 1
        omega
      · intro c hcc
        have hcc' : s.cache = some c := hcc
        rw [hcn] at hcc'
        cases hcc'
      · intro j h' hj
        have hj' : Function.update s.pcs i (PC.insert h) j = PC.insert h' := hj
        by_cases hij : j = i
        · rw [hij, pcs_update_self] at hj'
          cases hj'
          exact ⟨rfl, by show s.loadCalls + 1 = 1; omega⟩
        · rw [pcs_update_ne _ _ hij] at hj'
          obtain ⟨e1, e2⟩ := hs.ins_val j h' hj'
          exact absurd (hz ▸ e2) (by decide)
      · intro j h' hj
        have hj' : Function.update s.pcs i (PC.insert h) j = PC.rel h' := hj
        by_cases hij : j = i
        · rw [hij, pcs_update_self] at hj'
          cases hj'
        · rw [pcs_update_ne _ _ hij] at hj'
          obtain ⟨e1, e2, e3⟩ := hs.rel_val j h' hj'
          exact absurd (hz ▸ e2) (by decide)
      · intro j r hj
        have hj' : Function.update s.pcs i (PC.insert h) j = PC.done r := hj
        by_cases hij : j = i
        · rw [hij, pcs_update_self] at hj'
          cases hj'
        · rw [pcs_update_ne _ _ hij] at hj'
          obtain ⟨e1, e2⟩ := hs.done_val j r hj'
          exact absurd (hz ▸ e2) (by decide)
      · intro j hj
        have hj' : Function.update s.pcs i (PC.insert h) j = PC.doLoad := hj
        by_cases hij : j = i
        · rw [hij, pcs_update_self] at hj'
          cases hj'
        · rw [pcs_update_ne _ _ hij] at hj'
          have hjr : InRegion (s.pcs j) := by rw [hj']; trivial
          exact absurd (region_unique hinv hjr hir) hij
      · intro _
        refine Or.inr ⟨i, Or.inl ?_⟩
        show Function.update s.pcs i (PC.insert h) i = PC.insert h
        exact pcs_update_self s.pcs i (PC.insert h)
  | insert c =>
      obtain ⟨hch, h1⟩ := hs.ins_val i c hpc
      subst hch
      have hir : InRegion (s.pcs i) := by rw [hpc]; trivial
      simp only [stepOf, hpc]
      refine ⟨?_, ?_, ?_, ?_, ?_, ?_, ?_⟩
      · exact hs.calls_le
      · intro c' hcc
        have hcc' : (some c : Option Nat) = some c' := hcc
        cases hcc'
        exact ⟨rfl, h1⟩
      · intro j h' hj
        have hj' : Function.update s.pcs i (PC.rel c) j = PC.insert h' := hj
        by_cases hij : j = i
        · rw [hij, pcs_update_self] at hj'
          cases hj'
        · rw [pcs_update_ne _ _ hij] at hj'
          exact hs.ins_val j h' hj'
      · intro j h' hj
        have hj' : Function.update s.pcs i (PC.rel c) j = PC.rel h' := hj
        by_cases hij : j = i
        · rw [hij, pcs_update_self] at hj'
          cases hj'
          exact ⟨rfl, h1, rfl⟩
        · rw [pcs_update_ne _ _ hij] at hj'
          obtain ⟨e1, e2, e3⟩ := hs.rel_val j h' hj'
          exact ⟨e1, e2, rfl⟩
      · intro j r hj
        have hj' : Function.update s.pcs i (PC.rel c) j = PC.done r := hj
        by_cases hij : j = i
        · rw [hij, pcs_update_self] at hj'
          cases hj'
        · rw [pcs_update_ne _ _ hij] at hj'
          exact hs.done_val j r hj'
      · intro j hj
        have hj' : Function.update s.pcs i (PC.rel c) j = PC.doLoad := hj
        by_cases hij : j = i
        · rw [hij, pcs_update_self] at hj'
          cases hj'
        · rw [pcs_update_ne _ _ hij] at hj'
          have hjr : InRegion (s.pcs j) := by rw [hj']; trivial
          exact absurd (region_unique hinv hjr hir) hij
      · intro _
        exact Or.inl rfl
  | rel c =>
      obtain ⟨hch, h1, hsc⟩ := hs.rel_val i c hpc
      subst hch
      simp only [stepOf, hpc]
      exact cok_finish hs i c rfl h1 hsc rfl rfl rfl
  | done r =>
      simp only [stepOf, hpc]
      exact hs

lemma cok_init (n : Nat) (h : Nat) : COk h (initSys n) := by
  refine ⟨?_, ?_, ?_, ?_, ?_, ?_, ?_⟩
  · exact Nat.zero_le 1
  · intro c hcc
    exact Option.noConfusion hcc
  · intro j h' hj
    exact PC.noConfusion hj
  · intro j h' hj
    exact PC.noConfusion hj
  · intro j r hj
    exact PC.noConfusion hj
  · intro j hj
    exact PC.noConfusion hj
  · intro h1
    have h1' : (0 : Nat) = 1 := h1
    exact absurd h1' (by decide)

lemma cok_exec {n : Nat} {ld : Nat → Option Nat} {h : Nat} (hld : ld 1 = some h)
    (sched : List (Fin n)) {s : CSys n} (hinv : CInv s) (hs : COk h s) :
    COk h (exec ld sched s) := by
  induction sched generalizing s with
  | nil => exact hs
  | cons i rest ih => exact ih (cinv_stepOf ld hinv i) (cok_stepOf hld hinv hs i)

/-- C2 amended (the success half): in an execution consisting of any
number of concurrent `load_model` callers of one uncached name whose
engine load succeeds (the first invocation returns handle `h`), the
engine loader runs at most once overall, and any caller that has returned
observed exactly `ok h` — and by then the loader has run exactly once.
The failure half of the original claim is refuted by
`C2_failing_load_runs_loader_twice_counterexample`. -/
theorem C2_single_load_and_shared_handle_on_success {n : Nat}
    (ld : Nat → Option Nat) (h : Nat) (hld : ld 1 = some h)
    (sched : List (Fin n)) :
    (exec ld sched (initSys n)).loadCalls ≤ 1 ∧
    (∀ i r, (exec ld sched (initSys n)).pcs i = PC.done r →
      r = CRes.ok h ∧ (exec ld sched (initSys n)).loadCalls = 1) := by
  have hok : COk h (exec ld sched (initSys n)) :=
    cok_exec hld sched (cinv_init n) (cok_init n h)
  exact ⟨hok.calls_le, hok.done_val⟩

theorem C2_single_load_and_shared_handle_on_success_witness :
    ((fun _ : Nat => some 5) 1 = some 5) ∧
    ((exec (fun _ => some 5) [0, 0, 0, 0, 0, 0, 0] (initSys 1)).loadCalls ≤ 1 ∧
     (∀ i r, (exec (fun _ => some 5) [0, 0, 0, 0, 0, 0, 0] (initSys 1)).pcs i
          = PC.done r →
        r = CRes.ok 5 ∧
        (exec (fun _ => some 5) [0, 0, 0, 0, 0, 0, 0] (initSys 1)).loadCalls = 1)) :=
  ⟨rfl, C2_single_load_and_shared_handle_on_success (fun _ => some 5) 5 rfl
     [0, 0, 0, 0, 0, 0, 0]⟩

/-- C2 counterexample (the failure half): with an always-failing engine
loader and two concurrent callers that both pass their initial cache
check before any load completes, the schedule "0 misses, 1 misses, 0
creates the lock, 0 acquires, 1 reaches the lock, 0 re-checks, 0 loads
and fails, 1 acquires, 1 re-checks, 1 loads and fails" makes the engine
loader run twice — not once — and the two callers observe the two
distinct exceptions of the two invocations, contrary to the claim. -/
theorem C2_failing_load_runs_loader_twice_counterexample :
    (exec (fun _ => (none : Option Nat)) [0, 1, 0, 0, 1, 0, 0, 1, 1, 1]
       (initSys 2)).loadCalls = 2 ∧
    (exec (fun _ => (none : Option Nat)) [0, 1, 0, 0, 1, 0, 0, 1, 1, 1]
       (initSys 2)).pcs 0 = PC.done (CRes.err 1) ∧
    (exec (fun _ => (none : Option Nat)) [0, 1, 0, 0, 1, 0, 0, 1, 1, 1]
       (initSys 2)).pcs 1 = PC.done (CRes.err 2) ∧
    (2 : Nat) ≠ 1 ∧ CRes.err 1 ≠ CRes.err 2 := by
  decide

theorem C10_stale_access_counts_witness :
    ((ModelCache.put ⟨1, [("x", 5)], [("x", 2)]⟩ "y" 6).1 = some ("x", 5)) ∧
    (lookupKey (ModelCache.put ⟨1, [("x", 5)], [("x", 2)]⟩ "y" 6).2.access_count "x"
        = lookupKey (⟨1, [("x", 5)], [("x", 2)]⟩ : ModelCache).access_count "x" ∧
     (ModelManager.unload_model (initManager 1) "z").cache.access_count
        = (initManager 1).cache.access_count ∧
     (∀ rf, (ModelCache.clear rf ⟨1, [("x", 5)], [("x", 2)]⟩).2.access_count = []) ∧
     (lookupKey (runT 1 [CacheOp.put "a" 0, CacheOp.put "b" 1]).mc.access_count "a"
        = some 1 ∧
      lookupKey (runT 1 [CacheOp.put "a" 0, CacheOp.put "b" 1]).mc.cache "a" = none)) :=
  ⟨by decide,
   C10_stale_access_counts ⟨1, [("x", 5)], [("x", 2)]⟩ "y" 6 ("x", 5)
     (initManager 1) "z" (by decide)⟩

end NexusCore
